import Mathlib

/-!
Mosaic animation controller (`static/animations.js`).

A shallow embedding of the three initialisers of the animation controller
(magnetic buttons, typewriter greeting, page transitions) together with the
part of the host event loop they rely on (`setTimeout`), and the properties
of the natural-language specification stated over it.

How the page is modelled:

* Numbers are IEEE-754 binary64 values, each arithmetic operation rounding its
  exact result to nearest, ties to even.
* Time is a clock in milliseconds.  `setTimeout` appends a pending timer that
  is due `delay` ms later; the host may run a pending timer once it is due and
  every timer scheduled before it with an equal or smaller delay has run, and
  nothing in the controller cancels a timer.
* The page is the one left by the `DOMContentLoaded` listener: every element
  matched by `.magnetic-btn` and by `a.nav-link` carries its listeners.  What
  `getBoundingClientRect()` returns comes with each `mousemove`.
* Each handler is a function on the page state; `initGreeting` and
  `typeWriter` may throw, as an assignment through `null` does.
-/

namespace Mosaic

/-! ## JavaScript numbers -/

/-- A JavaScript Number: an IEEE-754 binary64 value.  Finite values are kept as
the rational they denote.  The sign of zero is not represented: the only
numbers the controller produces are written into a template string, where
both zeros print as `0`. -/
inductive JSNumber where
  | finite (q : ℚ)
  | posInf
  | negInf
  | nan
  deriving DecidableEq, Repr

/-- The power `2 ^ e` for an integer exponent. -/
def pow2 (e : Int) : ℚ :=
  if 0 ≤ e then ((2 ^ e.toNat : Nat) : ℚ) else mkRat 1 (2 ^ (-e).toNat)

/-- The number `⌊log₂ n⌋` for `0 < n` (and `0` for `n = 0`), by halving at most
`fuel` times. -/
def log2Fuel : Nat → Nat → Nat
  | 0, _ => 0
  | fuel + 1, n => if n < 2 then 0 else log2Fuel fuel (n / 2) + 1

/-- The integer `⌊log₂ a⌋` for a positive rational `a`. -/
def floorLog2 (a : ℚ) : Int :=
  let e0 : Int := (log2Fuel a.num.natAbs a.num.natAbs : Int) - (log2Fuel a.den a.den : Int)
  if pow2 e0 ≤ a then e0 else e0 - 1

/-- Rounding of a non-negative rational to an integer, ties to even. -/
def roundHalfEven (q : ℚ) : Int :=
  let f : Int := q.floor
  let r : ℚ := q - f
  if r < 1 / 2 then f
  else if 1 / 2 < r then f + 1
  else if f % 2 = 0 then f else f + 1

/-- Rounding of an exact result to binary64 (round to nearest, ties to even):
53 significant bits, least exponent `-1022` (subnormals below it), overflow to
an infinity from `2 ^ 1024` on. -/
def toBinary64 (q : ℚ) : JSNumber :=
  if q = 0 then .finite 0
  else
    let a : ℚ := if q < 0 then -q else q
    let e : Int := max (floorLog2 a) (-1022)
    let ulp : ℚ := pow2 (e - 52)
    let r : ℚ := (roundHalfEven (a / ulp) : ℚ) * ulp
    if pow2 1024 ≤ r then (if q < 0 then .negInf else .posInf)
    else .finite (if q < 0 then -r else r)

/-- The magnitude `toBinary64` rounds a positive rational to, before the
overflow test. -/
def roundedMagnitude (a : ℚ) : ℚ :=
  (roundHalfEven (a / pow2 (max (floorLog2 a) (-1022) - 52)) : ℚ) *
    pow2 (max (floorLog2 a) (-1022) - 52)

/-- The numeric literal with decimal value `q` (e.g. `0.3`, `2`). -/
def JSNumber.lit (q : ℚ) : JSNumber := toBinary64 q

/-- JavaScript `a - b`. -/
def JSNumber.sub : JSNumber → JSNumber → JSNumber
  | .nan, _ => .nan
  | _, .nan => .nan
  | .posInf, .posInf => .nan
  | .negInf, .negInf => .nan
  | .posInf, _ => .posInf
  | .negInf, _ => .negInf
  | .finite _, .posInf => .negInf
  | .finite _, .negInf => .posInf
  | .finite a, .finite b => toBinary64 (a - b)

/-- JavaScript `a * b`. -/
def JSNumber.mul : JSNumber → JSNumber → JSNumber
  | .nan, _ => .nan
  | _, .nan => .nan
  | .finite a, .finite b => toBinary64 (a * b)
  | .finite a, .posInf => if a = 0 then .nan else if a < 0 then .negInf else .posInf
  | .finite a, .negInf => if a = 0 then .nan else if a < 0 then .posInf else .negInf
  | .posInf, .finite b => if b = 0 then .nan else if b < 0 then .negInf else .posInf
  | .negInf, .finite b => if b = 0 then .nan else if b < 0 then .posInf else .negInf
  | .posInf, .posInf => .posInf
  | .negInf, .negInf => .posInf
  | .posInf, .negInf => .negInf
  | .negInf, .posInf => .negInf

/-- JavaScript `a / b` for a non-zero finite divisor `b` (the controller only
divides by the literal `2`); a zero divisor, whose result depends on the sign
of the zero, yields `nan` here. -/
def JSNumber.div : JSNumber → JSNumber → JSNumber
  | .nan, _ => .nan
  | _, .nan => .nan
  | .finite a, .finite b => if b = 0 then .nan else toBinary64 (a / b)
  | .finite _, _ => .finite 0
  | .posInf, .finite b => if b = 0 then .nan else if b < 0 then .negInf else .posInf
  | .negInf, .finite b => if b = 0 then .nan else if b < 0 then .posInf else .negInf
  | _, _ => .nan

/-! ## Page state -/

/-- A value of `style.transform`: either one of the string literals the
controller writes (`''` when never written), or the template string
`translate(${x}px, ${y}px)` kept with its two interpolated numbers. -/
inductive TransformValue where
  | str (s : String)
  | translatePx (x y : JSNumber)
  deriving DecidableEq, Repr

/-- The inline style of an element matched by `.magnetic-btn`. -/
structure Button where
  transform : TransformValue
  transition : String
  deriving DecidableEq, Repr

/-- What `getBoundingClientRect()` returns at the time of an event. -/
structure Rect where
  left : JSNumber
  top : JSNumber
  width : JSNumber
  height : JSNumber
  deriving DecidableEq, Repr

/-- An element matched by `a.nav-link`; `href` is `getAttribute('href')`,
`none` for `null`. -/
structure Link where
  href : Option String
  deriving DecidableEq, Repr

/-- The closures handed to `setTimeout`, with the variables they capture. -/
inductive Callback where
  | clearTransition (btn : Nat)
  | typeWriter
  | navigate (href : Option String)
  deriving DecidableEq, Repr

/-- A pending timer: its handle, the time from which it may run, the delay it
was scheduled with and its callback. -/
structure Timer where
  id : Nat
  due : Nat
  delay : Nat
  cb : Callback
  deriving DecidableEq, Repr

/-- The part of the page the handlers read and write, once the listeners are
attached.  Times are in milliseconds.  `text` and `i` are the variables of
`initGreeting` that `typeWriter` captures.  Strings that are indexed (the
greeting text and the greeting element's `innerHTML`) are lists of characters;
the greeting texts hold no markup character, so that writing and reading
`innerHTML` is the identity on them.  `navigations` lists the values assigned
to `window.location.href`, oldest first.  `timers` lists the pending timers in
the order they were scheduled. -/
structure World where
  now : Nat
  magnets : List Button
  greetingEl : Option (List Char)
  text : List Char
  i : Nat
  links : List Link
  bodyOpacity : String
  bodyTransition : String
  navigations : List String
  timers : List Timer
  nextTimerId : Nat
  deriving DecidableEq, Repr

/-- The value of `window.location.href` last assigned, if any. -/
def World.location (w : World) : Option String := w.navigations.getLast?

/-- An exception thrown by the page's script. -/
inductive JSError where
  | typeError
  deriving DecidableEq, Repr

/-- The call `setTimeout(cb, delay)`. -/
def setTimeout (w : World) (cb : Callback) (delay : Nat) : World :=
  { w with
    timers := w.timers ++ [{ id := w.nextTimerId, due := w.now + delay, delay := delay, cb := cb }]
    nextTimerId := w.nextTimerId + 1 }

/-! ## 1. Magnetic buttons -/

/-- The `mousemove` listener of magnetic button `b` (lines 17-24). -/
def mousemoveHandler (w : World) (b : Nat) (rect : Rect) (clientX clientY : JSNumber) : World :=
  match w.magnets[b]? with
  | none => w
  | some btn =>
    let x := (clientX.sub rect.left).sub (rect.width.div (JSNumber.lit 2))
    let y := (clientY.sub rect.top).sub (rect.height.div (JSNumber.lit 2))
    let t : TransformValue :=
      .translatePx (x.mul (JSNumber.lit (3 / 10))) (y.mul (JSNumber.lit (3 / 10)))
    { w with magnets := w.magnets.set b { btn with transform := t } }

/-- The `mouseleave` listener of magnetic button `b` (lines 26-33). -/
def mouseleaveHandler (w : World) (b : Nat) : World :=
  match w.magnets[b]? with
  | none => w
  | some btn =>
    let btn1 : Button := { btn with transform := .str "translate(0, 0)" }
    let btn2 : Button := { btn1 with transition := "transform 0.3s ease-out" }
    setTimeout { w with magnets := w.magnets.set b btn2 } (.clearTransition b) 300

/-- The body of the snap-back timer (line 31). -/
def clearTransition (w : World) (b : Nat) : World :=
  match w.magnets[b]? with
  | none => w
  | some btn => { w with magnets := w.magnets.set b { btn with transition := "" } }

/-! ## 2. Dynamic greeting -/

/-- The text chosen from `hour = new Date().getHours()` (lines 42-47). -/
def greetingText (hour : Int) : String := Id.run do
  let mut text := "Welcome Back, Executive"
  if hour < 12 then text := "Good Morning, Niranjan"
  else if hour < 18 then text := "Good Afternoon, Niranjan"
  else text := "Good Evening, Niranjan"
  return text

/-- JavaScript `s.charAt(i)`: the one-character string at index `i`, empty
out of range. -/
def charAt (s : List Char) (i : Nat) : List Char :=
  match s[i]? with
  | some c => [c]
  | none => []

/-- Assignment to `greetingEl.innerHTML`; a `TypeError` on `null`. -/
def World.setInnerHTML (w : World) (html : List Char) : Except JSError World :=
  match w.greetingEl with
  | none => .error .typeError
  | some _ => .ok { w with greetingEl := some html }

/-- The closure `typeWriter` (lines 52-58). -/
def typeWriter (w : World) : Except JSError World :=
  if w.i < w.text.length then
    match w.greetingEl with
    | none => .error .typeError
    | some html => do
      let w1 ← w.setInnerHTML (html ++ charAt w.text w.i)
      let w2 := { w1 with i := w1.i + 1 }
      pure (setTimeout w2 .typeWriter 50)
  else pure w

/-- The function `initGreeting` (lines 38-60), given the local hour. -/
def initGreeting (w : World) (hour : Int) : Except JSError World :=
  match w.greetingEl with
  | none => pure w
  | some _ => do
    let w1 := { w with text := (greetingText hour).toList, i := 0 }
    let w2 ← w1.setInnerHTML []
    typeWriter w2

/-! ## 3. Page transitions -/

/-- The event object of a click, as far as the listener touches it. -/
structure ClickEvent where
  defaultPrevented : Bool
  deriving DecidableEq, Repr

/-- The `click` listener of a navigation link, `this` being a link whose
`href` attribute is `attr` (lines 69-80). -/
def clickHandler (w : World) (attr : Option String) (e : ClickEvent) : World × ClickEvent :=
  let e1 := { e with defaultPrevented := true }
  let href := attr
  let w1 := { w with bodyOpacity := "0" }
  let w2 := { w1 with bodyTransition := "opacity 0.3s ease" }
  (setTimeout w2 (.navigate href) 300, e1)

/-- The assignment `window.location.href = href`; `null` is converted to the
string `null`. -/
def setLocation (w : World) (href : Option String) : World :=
  { w with navigations := w.navigations ++ [href.getD "null"] }

/-- Dispatch of a click on navigation link `l`: the listener runs, then the
link's default action (following `href`) unless it was prevented. -/
def dispatchClick (w : World) (l : Nat) : Option World :=
  match w.links[l]? with
  | none => none
  | some link =>
    let (w1, e1) := clickHandler w link.href { defaultPrevented := false }
    if e1.defaultPrevented then some w1
    else match link.href with
      | none => some w1
      | some u => some (setLocation w1 (some u))

/-! ## Event loop -/

/-- Running the callback of a timer; an exception thrown by it ends the
callback. -/
def runCallback (w : World) : Callback → World
  | .clearTransition b => clearTransition w b
  | .typeWriter =>
    match typeWriter w with
    | .ok w1 => w1
    | .error _ => w
  | .navigate href => setLocation w href

/-- Removal of the first pending timer with handle `id`, together with the
timers scheduled before it. -/
def takeTimer (id : Nat) : List Timer → Option (List Timer × Timer × List Timer)
  | [] => none
  | t :: ts =>
    if t.id = id then some ([], t, ts)
    else match takeTimer id ts with
      | none => none
      | some (pre, u, post) => some (t :: pre, u, post)

/-- The host runs timer `id`.  It may do so once the timer is due and every
timer scheduled before it with an equal or smaller delay has run. -/
def fireTimer (w : World) (id : Nat) : Option World :=
  match takeTimer id w.timers with
  | none => none
  | some (pre, t, post) =>
    if t.due ≤ w.now ∧ ∀ p ∈ pre, t.delay < p.delay then
      some (runCallback { w with timers := pre ++ post } t.cb)
    else none

/-- What can happen to the page: time passes, the pointer moves over or leaves
a magnetic button, a navigation link is clicked, the host runs a timer. -/
inductive Action where
  | tick (dt : Nat)
  | mousemove (b : Nat) (rect : Rect) (clientX clientY : JSNumber)
  | mouseleave (b : Nat)
  | click (l : Nat)
  | fire (id : Nat)
  deriving DecidableEq, Repr

/-- One step of the page; `none` when the action cannot happen (no such
element, no such timer, timer not yet allowed to run). -/
def step (w : World) : Action → Option World
  | .tick dt => some { w with now := w.now + dt }
  | .mousemove b rect clientX clientY =>
    if b < w.magnets.length then some (mousemoveHandler w b rect clientX clientY) else none
  | .mouseleave b =>
    if b < w.magnets.length then some (mouseleaveHandler w b) else none
  | .click l => dispatchClick w l
  | .fire id => fireTimer w id

/-- A sequence of steps. -/
def run (w : World) : List Action → Option World
  | [] => some w
  | a :: as =>
    match step w a with
    | none => none
    | some w1 => run w1 as

/-- JavaScript `a + b`; the controller never adds numbers, the sum only serves
to write the specification's formula `left + width / 2`. -/
def JSNumber.add : JSNumber → JSNumber → JSNumber
  | .nan, _ => .nan
  | _, .nan => .nan
  | .posInf, .negInf => .nan
  | .negInf, .posInf => .nan
  | .posInf, _ => .posInf
  | .negInf, _ => .negInf
  | .finite _, .posInf => .posInf
  | .finite _, .negInf => .negInf
  | .finite a, .finite b => toBinary64 (a + b)

/-- The reveal step run `k` times in a row. -/
def typeWriterRuns : Nat → World → Except JSError World
  | 0, w => pure w
  | k + 1, w =>
    match typeWriter w with
    | .ok w1 => typeWriterRuns k w1
    | .error e => .error e

/-- A page with one magnetic button, a greeting element and two navigation
links, at time `0`, nothing written yet and no timer pending. -/
def samplePage : World :=
  { now := 0
    magnets := [{ transform := .str "", transition := "" }]
    greetingEl := some "...".toList
    text := []
    i := 0
    links := [{ href := some "/dashboard" }, { href := some "/settings" }]
    bodyOpacity := ""
    bodyTransition := ""
    navigations := []
    timers := []
    nextTimerId := 0 }

/-- The sample page as `initGreeting` leaves it at line 51 in the afternoon:
the text chosen, the index at `0` and the greeting element cleared. -/
def clearedPage : World :=
  { samplePage with greetingEl := some [], text := "Good Afternoon, Niranjan".toList }

/-- A bounding box with centre `(100, 100)`. -/
def sampleRect : Rect :=
  { left := .finite 50, top := .finite 50, width := .finite 100, height := .finite 100 }

/-- The schedule in which each of `k` successive timers, with handles `first`,
`first + 1`, ..., runs exactly 50ms after the previous step. -/
def exactSchedule : Nat → Nat → List Action
  | 0, _ => []
  | k + 1, first => .tick 50 :: .fire first :: exactSchedule k (first + 1)

/-- The page `samplePage` after `initGreeting` at hour 14 followed by `k`
timers each run exactly at its 50ms delay. -/
def greetingAfter (k : Nat) : Option World :=
  match initGreeting samplePage 14 with
  | .ok w => run w (exactSchedule k 0)
  | .error _ => none

/-- A bounding box whose left edge and width are the doubles `8.3` and `0.2`. -/
def fractionalRect : Rect :=
  { left := JSNumber.lit (83 / 10), top := .finite 0, width := JSNumber.lit (2 / 10),
    height := .finite 40 }

/-- A bounding box whose left edge and width are the doubles `0.3` and `24.3`;
the pointer positions `(4, 20)` lie inside it. -/
def tieRect : Rect :=
  { left := JSNumber.lit (3 / 10), top := .finite 0, width := JSNumber.lit (243 / 10),
    height := .finite 40 }

/-- The specification's offset `0.3 * (client - (edge + size / 2))`, in exact
arithmetic. -/
def exactOffset (client edge size : ℚ) : ℚ := 3 / 10 * (client - (edge + size / 2))

/-- The specification's offset `0.3 * (client - (edge + size / 2))`, evaluated
as written in JavaScript arithmetic. -/
def jsOffset (client edge size : JSNumber) : JSNumber :=
  (JSNumber.lit (3 / 10)).mul (client.sub (edge.add (size.div (JSNumber.lit 2))))

/-- Two clicks 100ms apart, on the first and then on the second link, and
both timers run 300ms after the second click. -/
def twoClicks : List Action :=
  [.click 0, .tick 100, .click 1, .tick 300, .fire 0, .fire 1]

/-- The sample page after `twoClicks`. -/
def afterTwoClicks : World :=
  { samplePage with
    now := 400
    bodyOpacity := "0"
    bodyTransition := "opacity 0.3s ease"
    navigations := ["/dashboard", "/settings"]
    nextTimerId := 2 }

/-- The locations the pending `navigate` timers will assign, in the order the
timers were scheduled. -/
def pendingNavigations (ts : List Timer) : List String :=
  ts.filterMap fun t =>
    match t.cb with
    | .navigate href => some (href.getD "null")
    | _ => none

/-- The location a click on link `l` asks for (`null` converted to a string),
as a list: empty when the action is not a click on a link of the page. -/
def clickedLocation (links : List Link) : Action → List String
  | .click l =>
    match links[l]? with
    | some link => [link.href.getD "null"]
    | none => []
  | _ => []

/-- The locations asked for by the clicks of a sequence of actions, in order. -/
def clickedLocations (links : List Link) (as : List Action) : List String :=
  (as.map (clickedLocation links)).flatten

/-- Whether an action is a click on a navigation link. -/
def isClick : Action → Bool
  | .click _ => true
  | _ => false

/-- Every pending timer carries a handle below the next one to be handed out. -/
def World.HandlesFresh (w : World) : Prop := ∀ t ∈ w.timers, t.id < w.nextTimerId

/-- Every pending `navigate` timer was scheduled with a delay of 300ms. -/
def World.NavigateDelays (w : World) : Prop :=
  ∀ t ∈ w.timers, ∀ href, t.cb = .navigate href → t.delay = 300

/-- The greeting element shows exactly the first `i` characters of the text,
and `i` is at most the length of the text. -/
def World.Revealed (w : World) : Prop :=
  w.i ≤ w.text.length ∧ w.greetingEl = some (w.text.take w.i)

/-! ## Properties -/

/-! ### Rounding -/

/-- `pow2` is the power of two. -/
theorem pow2_eq_zpow (e : Int) : pow2 e = (2 : ℚ) ^ e := by
  unfold pow2
  split
  · rename_i h
    obtain ⟨n, rfl⟩ := Int.eq_ofNat_of_zero_le h
    simp
  · rename_i h
    have hneg : 0 ≤ -e := by omega
    obtain ⟨n, hn⟩ := Int.eq_ofNat_of_zero_le hneg
    have he : e = -(n : Int) := by omega
    subst he
    simp [Rat.mkRat_eq_div]

/-- Powers of two are positive. -/
theorem pow2_pos (e : Int) : 0 < pow2 e := by
  rw [pow2_eq_zpow]
  positivity

/-- `log2Fuel` never overshoots: `2 ^ log2Fuel fuel n ≤ n`. -/
theorem log2Fuel_le (fuel : Nat) : ∀ n : Nat, 1 ≤ n → 2 ^ log2Fuel fuel n ≤ n := by
  induction fuel with
  | zero => intro n hn; simpa [log2Fuel] using hn
  | succ f ih =>
    intro n hn
    by_cases h2 : n < 2
    · simpa [log2Fuel, h2] using hn
    · have h3 : 1 ≤ n / 2 := by omega
      have := ih (n / 2) h3
      simp only [log2Fuel, h2, if_false, pow_succ]
      omega

/-- With fuel `n`, `log2Fuel` reaches the top bit of `n`. -/
theorem lt_log2Fuel (fuel : Nat) : ∀ n : Nat, n ≤ fuel → n < 2 ^ (log2Fuel fuel n + 1) := by
  induction fuel with
  | zero =>
    intro n hn
    have h0 : n = 0 := by omega
    subst h0
    simp [log2Fuel]
  | succ f ih =>
    intro n hn
    by_cases h2 : n < 2
    · simp [log2Fuel, h2]
    · have h3 : n / 2 ≤ f := by omega
      have := ih (n / 2) h3
      simp only [log2Fuel, h2, if_false, pow_succ] at this ⊢
      omega

/-- `2 ^ floorLog2 a` is at most `a`. -/
theorem pow2_floorLog2_le (a : ℚ) (ha : 0 < a) : pow2 (floorLog2 a) ≤ a := by
  unfold floorLog2
  simp only
  split
  · assumption
  · rw [pow2_eq_zpow]
    have hnum : 0 < a.num := Rat.num_pos.mpr ha
    have hp : 1 ≤ a.num.natAbs := by omega
    have h1 := log2Fuel_le a.num.natAbs a.num.natAbs hp
    have h2 := lt_log2Fuel a.den a.den (Nat.le_refl _)
    have hden : (0 : ℚ) < a.den := by exact_mod_cast a.den_pos
    have hnumq : (a.num : ℚ) = (a.num.natAbs : ℚ) := by
      rw [← Int.cast_natCast, Int.natAbs_of_nonneg (le_of_lt hnum)]
    have h1q : (2 : ℚ) ^ log2Fuel a.num.natAbs a.num.natAbs ≤ (a.num.natAbs : ℚ) := by
      exact_mod_cast h1
    have h2q : (a.den : ℚ) ≤ (2 : ℚ) ^ (log2Fuel a.den a.den + 1) := by
      exact_mod_cast Nat.le_of_lt h2
    have hsplit : (2 : ℚ) ^ ((log2Fuel a.num.natAbs a.num.natAbs : Int) -
        (log2Fuel a.den a.den : Int) - 1) =
        (2 : ℚ) ^ log2Fuel a.num.natAbs a.num.natAbs / (2 : ℚ) ^ (log2Fuel a.den a.den + 1) := by
      have : ((log2Fuel a.num.natAbs a.num.natAbs : Int) - (log2Fuel a.den a.den : Int) - 1) =
          (log2Fuel a.num.natAbs a.num.natAbs : Int) - ((log2Fuel a.den a.den + 1 : Nat) : Int) := by
        push_cast
        ring
      rw [this, zpow_sub₀ (by norm_num : (2 : ℚ) ≠ 0), zpow_natCast, zpow_natCast]
    rw [hsplit]
    calc (2 : ℚ) ^ log2Fuel a.num.natAbs a.num.natAbs / (2 : ℚ) ^ (log2Fuel a.den a.den + 1)
        ≤ (a.num.natAbs : ℚ) / (a.den : ℚ) :=
          div_le_div₀ (by positivity) h1q hden h2q
      _ = a := by rw [← hnumq]; exact Rat.num_div_den a

/-- Rounding to an integer moves a rational by at most one half. -/
theorem roundHalfEven_near (q : ℚ) : |(roundHalfEven q : ℚ) - q| ≤ 1 / 2 := by
  unfold roundHalfEven
  simp only
  have h1 : ((Rat.floor q : Int) : ℚ) ≤ q := Int.floor_le q
  have h2 : q < ((Rat.floor q : Int) : ℚ) + 1 := Int.lt_floor_add_one q
  rw [abs_le]
  split
  · constructor <;> linarith
  · split
    · push_cast
      constructor <;> linarith
    · split
      · constructor <;> linarith
      · push_cast
        constructor <;> linarith


/-- Half a unit in the last place is at most `a / 2 ^ 53`, or `2 ^ -1075` in the
subnormal range. -/
theorem half_ulp_le (a : ℚ) (ha : 0 < a) :
    pow2 (max (floorLog2 a) (-1022) - 52) / 2 ≤ a / 2 ^ 53 + 1 / 2 ^ 1075 := by
  have hfl := pow2_floorLog2_le a ha
  rw [pow2_eq_zpow] at hfl
  rw [pow2_eq_zpow, zpow_sub₀ (by norm_num : (2 : ℚ) ≠ 0)]
  rcases max_choice (floorLog2 a) (-1022) with h | h
  · rw [h]
    have h52 : (2 : ℚ) ^ (52 : Int) = 2 ^ 52 := by norm_cast
    rw [h52]
    have : (2 : ℚ) ^ floorLog2 a / 2 ^ 52 / 2 = (2 : ℚ) ^ floorLog2 a / 2 ^ 53 := by ring
    rw [this]
    have h1 : (2 : ℚ) ^ floorLog2 a / 2 ^ 53 ≤ a / 2 ^ 53 :=
      div_le_div_of_nonneg_right hfl (by positivity)
    have h2 : (0 : ℚ) ≤ 1 / 2 ^ 1075 := by positivity
    linarith
  · rw [h]
    have h3 : (2 : ℚ) ^ (-1022 : Int) / (2 : ℚ) ^ (52 : Int) / 2 = 1 / 2 ^ 1075 := by
      rw [zpow_neg]
      norm_num
    rw [h3]
    have h2 : (0 : ℚ) ≤ a / 2 ^ 53 := by positivity
    linarith

/-- `toBinary64` on a positive rational. -/
theorem toBinary64_of_pos (q : ℚ) (h : 0 < q) :
    toBinary64 q =
      if pow2 1024 ≤ roundedMagnitude q then .posInf else .finite (roundedMagnitude q) := by
  have h0 : q ≠ 0 := ne_of_gt h
  have h1 : ¬ q < 0 := not_lt.mpr (le_of_lt h)
  simp [toBinary64, roundedMagnitude, h0, h1]

/-- `toBinary64` on a negative rational. -/
theorem toBinary64_of_neg (q : ℚ) (h : q < 0) :
    toBinary64 q =
      if pow2 1024 ≤ roundedMagnitude (-q) then .negInf
      else .finite (-roundedMagnitude (-q)) := by
  have h0 : q ≠ 0 := ne_of_lt h
  simp [toBinary64, roundedMagnitude, h0, h]

/-- Rounding a positive rational of magnitude at most `2 ^ 1022` moves it by at
most half a unit in the last place and does not overflow. -/
theorem roundedMagnitude_near (a : ℚ) (ha : 0 < a) (hale : a ≤ 2 ^ 1022) :
    |roundedMagnitude a - a| ≤ a / 2 ^ 53 + 1 / 2 ^ 1075 ∧
      ¬ pow2 1024 ≤ roundedMagnitude a := by
  unfold roundedMagnitude
  have hulp := pow2_pos (max (floorLog2 a) (-1022) - 52)
  have hhalf := half_ulp_le a ha
  have hnear := roundHalfEven_near (a / pow2 (max (floorLog2 a) (-1022) - 52))
  generalize pow2 (max (floorLog2 a) (-1022) - 52) = ulp at hulp hhalf hnear ⊢
  generalize (roundHalfEven (a / ulp) : ℚ) = n at hnear ⊢
  have hmul : |n * ulp - a| ≤ ulp / 2 := by
    have : n * ulp - a = (n - a / ulp) * ulp := by field_simp
    rw [this, abs_mul, abs_of_pos hulp]
    calc |n - a / ulp| * ulp ≤ 1 / 2 * ulp := mul_le_mul_of_nonneg_right hnear (le_of_lt hulp)
      _ = ulp / 2 := by ring
  have herr : |n * ulp - a| ≤ a / 2 ^ 53 + 1 / 2 ^ 1075 := le_trans hmul hhalf
  refine ⟨herr, ?_⟩
  rw [pow2_eq_zpow]
  have h1024 : (2 : ℚ) ^ (1024 : Int) = 2 ^ 1022 * 4 := by
    rw [zpow_ofNat, show (1024 : ℕ) = 1022 + 2 from rfl, pow_add]
    congr 1
  rw [h1024, not_le]
  have hup := (abs_le.mp herr).2
  have hx : (1 : ℚ) ≤ 2 ^ 1022 := one_le_pow₀ (by norm_num)
  have h1 : a / 2 ^ 53 ≤ a := div_le_self (le_of_lt ha) (one_le_pow₀ (by norm_num))
  have h2 : (1 : ℚ) / 2 ^ 1075 ≤ 1 := by
    rw [div_le_one (pow_pos (by norm_num) _)]
    exact one_le_pow₀ (by norm_num)
  generalize (2 : ℚ) ^ 1022 = x at hale hx ⊢
  linarith

/-- Rounding to binary64 of a rational of magnitude at most `2 ^ 1022` yields a
finite number, within half a unit in the last place of it. -/
theorem toBinary64_near (q : ℚ) (hq : |q| ≤ 2 ^ 1022) :
    ∃ r : ℚ, toBinary64 q = .finite r ∧ |r - q| ≤ |q| / 2 ^ 53 + 1 / 2 ^ 1075 := by
  rcases lt_trichotomy q 0 with hneg | hq0 | hpos
  · have habs : |q| = -q := abs_of_neg hneg
    rcases roundedMagnitude_near (-q) (by linarith) (by rw [← habs]; exact hq) with ⟨herr, hfin⟩
    refine ⟨-roundedMagnitude (-q), by rw [toBinary64_of_neg q hneg, if_neg hfin], ?_⟩
    rw [habs]
    have : -roundedMagnitude (-q) - q = -(roundedMagnitude (-q) - -q) := by ring
    rw [this, abs_neg]
    exact herr
  · subst hq0
    refine ⟨0, by simp [toBinary64], ?_⟩
    norm_num
  · have habs : |q| = q := abs_of_pos hpos
    rcases roundedMagnitude_near q hpos (by rw [← habs]; exact hq) with ⟨herr, hfin⟩
    refine ⟨roundedMagnitude q, by rw [toBinary64_of_pos q hpos, if_neg hfin], ?_⟩
    rw [habs]
    exact herr


/-- The offset the `mousemove` handler computes, for finite coordinates of
magnitude at most `2 ^ 1000`, is finite and within rounding of the exact one. -/
theorem offset_near (c e s : ℚ) (hc : |c| ≤ 2 ^ 1000) (he : |e| ≤ 2 ^ 1000)
    (hs : |s| ≤ 2 ^ 1000) :
    ∃ x : ℚ,
      (((JSNumber.finite c).sub (.finite e)).sub ((JSNumber.finite s).div (.finite 2))).mul
        (.finite (5404319552844595 / 18014398509481984)) = .finite x ∧
      |x - exactOffset c e s| ≤ (|c| + |e| + |s| / 2) / 2 ^ 52 + 1 / 2 ^ 1074 := by
  have hM : (1 : ℚ) ≤ 2 ^ 1000 := one_le_pow₀ (by norm_num)
  have h1022 : (2 : ℚ) ^ 1022 = 2 ^ 1000 * 4194304 := by
    rw [show (1022 : ℕ) = 1000 + 22 from rfl, pow_add]
    congr 1
  have hη : (1 : ℚ) / 2 ^ 1074 = 2 * (1 / 2 ^ 1075) := by
    have h75 : (2 : ℚ) ^ (1074 + 1) = 2 ^ 1074 * 2 := pow_succ 2 1074
    have hpos : (0 : ℚ) < 2 ^ 1074 := pow_pos (by norm_num) _
    rw [show (1075 : ℕ) = 1074 + 1 from rfl, h75]
    generalize (2 : ℚ) ^ 1074 = p at hpos ⊢
    field_simp
  have hη0 : (0 : ℚ) ≤ 1 / 2 ^ 1075 := by positivity
  have hη1 : (1 : ℚ) / 2 ^ 1075 ≤ 1 := by
    rw [div_le_one (pow_pos (by norm_num) _)]
    exact one_le_pow₀ (by norm_num)
  rw [hη]
  obtain ⟨η, hηdef⟩ : ∃ η : ℚ, (1 : ℚ) / 2 ^ 1075 = η := ⟨_, rfl⟩
  rw [hηdef] at hη0 hη1 ⊢
  -- the three operands are finite
  have hA : |c - e| ≤ |c| + |e| := abs_sub c e
  obtain ⟨d1, hd1, e1⟩ := toBinary64_near (c - e) (by rw [h1022]; linarith)
  rw [hηdef] at e1
  have hH : |s / 2| = |s| / 2 := by rw [abs_div]; norm_num
  obtain ⟨h, hh, e2⟩ := toBinary64_near (s / 2) (by rw [h1022, hH]; linarith [abs_nonneg s])
  rw [hH, hηdef] at e2
  have hd1a : |d1| ≤ |c - e| + (|c - e| / 2 ^ 53 + η) := by
    have := abs_sub_abs_le_abs_sub d1 (c - e)
    linarith
  have hha : |h| ≤ |s| / 2 + (|s| / 2 / 2 ^ 53 + η) := by
    have := abs_sub_abs_le_abs_sub h (s / 2)
    linarith
  have hB : |d1 - h| ≤ |d1| + |h| := abs_sub d1 h
  have hc0 := abs_nonneg c
  have he0 := abs_nonneg e
  have hs0 := abs_nonneg s
  have hA0 := abs_nonneg (c - e)
  obtain ⟨d2, hd2, e3⟩ := toBinary64_near (d1 - h) (by rw [h1022]; linarith)
  rw [hηdef] at e3
  have hd2a : |d2| ≤ |d1 - h| + (|d1 - h| / 2 ^ 53 + η) := by
    have := abs_sub_abs_le_abs_sub d2 (d1 - h)
    linarith
  have hP : |d2 * (5404319552844595 / 18014398509481984)| =
      |d2| * (5404319552844595 / 18014398509481984) := by
    rw [abs_mul, abs_of_pos (by norm_num : (0 : ℚ) < 5404319552844595 / 18014398509481984)]
  have hd20 := abs_nonneg d2
  obtain ⟨x, hx, e4⟩ := toBinary64_near (d2 * (5404319552844595 / 18014398509481984))
    (by rw [h1022, hP]; linarith)
  rw [hP, hηdef] at e4
  refine ⟨x, ?_, ?_⟩
  · simp [JSNumber.sub, JSNumber.div, JSNumber.mul, hd1, hh, hd2, hx]
  · unfold exactOffset
    have e1' := abs_le.mp e1
    have e2' := abs_le.mp e2
    have e3' := abs_le.mp e3
    have e4' := abs_le.mp e4
    have t1 := le_abs_self d2
    have t2 := neg_abs_le d2
    have t3 := le_abs_self (c - e)
    have t4 := neg_abs_le (c - e)
    rw [abs_le]
    constructor <;> linarith

/-! ### The reveal step -/

theorem charAt_eq (s : List Char) (i : Nat) : charAt s i = s[i]?.toList := by
  unfold charAt
  cases s[i]? <;> rfl

/-- One reveal step below the end of the text: one more character is shown, the
index advances and one 50ms timer is scheduled. -/
theorem typeWriter_below (w : World) (html : List Char) (hel : w.greetingEl = some html)
    (hlt : w.i < w.text.length) :
    typeWriter w = .ok (setTimeout
      { w with greetingEl := some (html ++ charAt w.text w.i), i := w.i + 1 } .typeWriter 50) := by
  simp [typeWriter, hlt, hel, World.setInnerHTML, bind, Except.bind, pure, Except.pure]

/-- One reveal step at the end of the text changes nothing. -/
theorem typeWriter_done (w : World) (hge : w.text.length ≤ w.i) : typeWriter w = .ok w := by
  have : ¬ w.i < w.text.length := by omega
  simp [typeWriter, this, pure, Except.pure]

/-- The last of `k + 1` reveal steps is a reveal step after the first `k`. -/
theorem typeWriterRuns_succ (k : Nat) :
    ∀ w : World, typeWriterRuns (k + 1) w =
      match typeWriterRuns k w with
      | .ok w1 => typeWriter w1
      | .error e => .error e := by
  induction k with
  | zero =>
    intro w
    cases h : typeWriter w <;> simp [typeWriterRuns, h, pure, Except.pure]
  | succ k ih =>
    intro w
    show (match typeWriter w with
      | .ok w1 => typeWriterRuns (k + 1) w1
      | .error e => .error e) = _
    cases h : typeWriter w with
    | error e => simp [typeWriterRuns, h]
    | ok w1 =>
      simp only [ih w1]
      simp [typeWriterRuns, h]

/-- The reveal steps from a page showing the first `w.i` characters. -/
theorem typeWriterRuns_from (k : Nat) :
    ∀ w : World, w.i ≤ w.text.length → w.greetingEl = some (w.text.take w.i) →
      ∃ w1, typeWriterRuns k w = .ok w1 ∧ w1.text = w.text ∧
        w1.i = min (w.i + k) w.text.length ∧
        w1.greetingEl = some (w.text.take (min (w.i + k) w.text.length)) := by
  induction k with
  | zero =>
    intro w hle hel
    refine ⟨w, rfl, rfl, ?_, ?_⟩
    · simp [Nat.min_eq_left hle]
    · simp [Nat.min_eq_left hle, hel]
  | succ k ih =>
    intro w hle hel
    by_cases hlt : w.i < w.text.length
    · have hstep := typeWriter_below w _ hel hlt
      have hnext := ih (setTimeout
        { w with greetingEl := some (w.text.take w.i ++ charAt w.text w.i), i := w.i + 1 }
        .typeWriter 50) (by simpa [setTimeout] using hlt)
        (by simp [setTimeout, charAt_eq, List.take_succ])
      rcases hnext with ⟨w1, hrun, htext, hi, hhtml⟩
      refine ⟨w1, ?_, ?_, ?_, ?_⟩
      · simp [typeWriterRuns, hstep, hrun]
      · simpa [setTimeout] using htext
      · simp only [setTimeout] at hi
        rw [hi]
        congr 1
        omega
      · simp only [setTimeout] at hhtml
        rw [hhtml]
        congr 2
        congr 1
        omega
    · have hge : w.text.length ≤ w.i := by omega
      have hstep := typeWriter_done w hge
      rcases ih w hle hel with ⟨w1, hrun, htext, hi, hhtml⟩
      refine ⟨w1, ?_, htext, ?_, ?_⟩
      · simp [typeWriterRuns, hstep, hrun]
      · rw [hi]
        omega
      · rw [hhtml]
        congr 2
        omega

/-! ### Lists -/

/-- Writing at an index the value already there changes nothing. -/
theorem set_same {α : Type} (l : List α) (b : Nat) (a : α) (h : l[b]? = some a) :
    l.set b a = l := by
  apply List.ext_getElem?
  intro j
  by_cases hj : b = j
  · subst hj
    rw [List.getElem?_set_self' , h]
    simp
  · rw [List.getElem?_set_ne hj]

/-! ### Timers -/

/-- What `takeTimer` returns splits the pending timers at a timer with the
handle asked for. -/
theorem takeTimer_eq (id : Nat) :
    ∀ (ts pre post : List Timer) (t : Timer), takeTimer id ts = some (pre, t, post) →
      ts = pre ++ t :: post ∧ t.id = id := by
  intro ts
  induction ts with
  | nil => intro pre post t h; simp [takeTimer] at h
  | cons u us ih =>
    intro pre post t h
    by_cases hu : u.id = id
    · simp only [takeTimer, hu, if_true, Option.some.injEq, Prod.mk.injEq] at h
      rcases h with ⟨rfl, rfl, rfl⟩
      exact ⟨rfl, hu⟩
    · simp only [takeTimer, hu, if_false] at h
      cases hrec : takeTimer id us with
      | none => simp [hrec] at h
      | some r =>
        rcases r with ⟨pre1, t1, post1⟩
        simp only [hrec, Option.some.injEq, Prod.mk.injEq] at h
        rcases h with ⟨rfl, rfl, rfl⟩
        rcases ih pre1 post1 t1 hrec with ⟨h1, h2⟩
        exact ⟨by rw [h1]; rfl, h2⟩

/-- A reveal step either changes nothing or shows one more character and
schedules one 50ms timer. -/
theorem typeWriter_cases (w w1 : World) (h : typeWriter w = .ok w1) :
    w1 = w ∨ ∃ html, w.greetingEl = some html ∧ w.i < w.text.length ∧
      w1 = setTimeout { w with greetingEl := some (html ++ charAt w.text w.i), i := w.i + 1 }
        .typeWriter 50 := by
  by_cases hlt : w.i < w.text.length
  · cases hel : w.greetingEl with
    | none => simp [typeWriter, hlt, hel] at h
    | some html =>
      rw [typeWriter_below w html hel hlt] at h
      exact Or.inr ⟨html, rfl, hlt, (Except.ok.inj h).symm⟩
  · rw [typeWriter_done w (by omega)] at h
    exact Or.inl (Except.ok.inj h).symm

/-- What a timer callback leaves alone and what it may change: the clock and
the links stay, at most one 50ms `typeWriter` timer is added, and only a
`navigate` callback assigns the location. -/
theorem runCallback_frame (w : World) (cb : Callback) :
    (runCallback w cb).now = w.now ∧ (runCallback w cb).links = w.links ∧
    (((runCallback w cb).timers = w.timers ∧ (runCallback w cb).nextTimerId = w.nextTimerId) ∨
      ((runCallback w cb).timers =
          w.timers ++ [{ id := w.nextTimerId, due := w.now + 50, delay := 50, cb := .typeWriter }] ∧
        (runCallback w cb).nextTimerId = w.nextTimerId + 1)) ∧
    (runCallback w cb).navigations =
      match cb with
      | .navigate href => w.navigations ++ [href.getD "null"]
      | _ => w.navigations := by
  cases cb with
  | clearTransition b =>
    simp only [runCallback, clearTransition]
    cases w.magnets[b]? <;> simp
  | navigate href => simp [runCallback, setLocation]
  | typeWriter =>
    simp only [runCallback]
    cases h : typeWriter w with
    | error e => simp
    | ok w1 =>
      rcases typeWriter_cases w w1 h with rfl | ⟨html, _, _, rfl⟩
      · simp
      · simp [setTimeout]

/-- The effect of one step on the links, the clock and the pending timers:
timers are only added with fresh handles, and a pending timer only leaves by
being run. -/
theorem step_frame (w w1 : World) (a : Action) (h : step w a = some w1) :
    w1.links = w.links ∧ w.now ≤ w1.now ∧ w.nextTimerId ≤ w1.nextTimerId ∧
    (∀ t ∈ w1.timers, t ∈ w.timers ∨ w.nextTimerId ≤ t.id) ∧
    (∀ t ∈ w.timers, t ∈ w1.timers ∨ a = .fire t.id) := by
  cases a with
  | tick dt =>
    simp only [step, Option.some.injEq] at h
    subst h
    exact ⟨rfl, Nat.le_add_right _ _, Nat.le_refl _, fun t ht => Or.inl ht, fun t ht => Or.inl ht⟩
  | mousemove b rect x y =>
    simp only [step] at h
    split at h
    · simp only [Option.some.injEq] at h
      subst h
      simp only [mousemoveHandler]
      cases w.magnets[b]? <;>
        exact ⟨rfl, Nat.le_refl _, Nat.le_refl _, fun t ht => Or.inl ht, fun t ht => Or.inl ht⟩
    · simp at h
  | mouseleave b =>
    simp only [step] at h
    split at h
    · simp only [Option.some.injEq] at h
      subst h
      simp only [mouseleaveHandler]
      cases w.magnets[b]? with
      | none =>
        exact ⟨rfl, Nat.le_refl _, Nat.le_refl _, fun t ht => Or.inl ht, fun t ht => Or.inl ht⟩
      | some btn =>
        refine ⟨rfl, Nat.le_refl _, Nat.le_succ _, ?_, ?_⟩
        · intro t ht
          rcases List.mem_append.mp ht with h1 | h1
          · exact Or.inl h1
          · rw [List.mem_singleton.mp h1]
            exact Or.inr (Nat.le_refl _)
        · intro t ht
          exact Or.inl (List.mem_append_left _ ht)
    · simp at h
  | click l =>
    simp only [step, dispatchClick] at h
    cases hl : w.links[l]? with
    | none => simp [hl] at h
    | some link =>
      simp only [hl, clickHandler, if_true, Option.some.injEq] at h
      subst h
      refine ⟨rfl, Nat.le_refl _, Nat.le_succ _, ?_, ?_⟩
      · intro t ht
        rcases List.mem_append.mp ht with h1 | h1
        · exact Or.inl h1
        · rw [List.mem_singleton.mp h1]
          exact Or.inr (Nat.le_refl _)
      · intro t ht
        exact Or.inl (List.mem_append_left _ ht)
  | fire id =>
    simp only [step, fireTimer] at h
    cases htake : takeTimer id w.timers with
    | none => simp [htake] at h
    | some r =>
      rcases r with ⟨pre, u, post⟩
      simp only [htake] at h
      split at h
      · simp only [Option.some.injEq] at h
        rcases takeTimer_eq id _ _ _ _ htake with ⟨hsplit, hid⟩
        rcases runCallback_frame { w with timers := pre ++ post } u.cb with
          ⟨hnow, hlinks, htimers, _⟩
        rw [h] at hnow hlinks htimers
        simp only at hnow hlinks htimers
        refine ⟨hlinks, by omega, ?_, ?_, ?_⟩
        · rcases htimers with ⟨_, h2⟩ | ⟨_, h2⟩ <;> omega
        · intro t ht
          have hsub : ∀ t ∈ pre ++ post, t ∈ w.timers := by
            intro t ht
            rw [hsplit]
            rcases List.mem_append.mp ht with h1 | h1
            · exact List.mem_append_left _ h1
            · exact List.mem_append_right _ (List.mem_cons_of_mem _ h1)
          rcases htimers with ⟨h1, _⟩ | ⟨h1, _⟩
          · rw [h1] at ht
            exact Or.inl (hsub t ht)
          · rw [h1] at ht
            rcases List.mem_append.mp ht with h3 | h3
            · exact Or.inl (hsub t h3)
            · simp only [List.mem_singleton] at h3
              subst h3
              exact Or.inr (Nat.le_refl _)
        · intro t ht
          rw [hsplit] at ht
          have hkeep : t ∈ pre ++ post → t ∈ w1.timers := by
            intro h3
            rcases htimers with ⟨h1, _⟩ | ⟨h1, _⟩
            · rw [h1]; exact h3
            · rw [h1]; exact List.mem_append_left _ h3
          rcases List.mem_append.mp ht with h3 | h3
          · exact Or.inl (hkeep (List.mem_append_left _ h3))
          · rcases List.mem_cons.mp h3 with h4 | h4
            · subst h4
              exact Or.inr (by rw [hid])
            · exact Or.inl (hkeep (List.mem_append_right _ h4))
      · simp at h

/-- The effect of a sequence of steps on the links, the clock and the pending
timers. -/
theorem run_frame (as : List Action) :
    ∀ w w1 : World, run w as = some w1 →
      w1.links = w.links ∧ w.now ≤ w1.now ∧ w.nextTimerId ≤ w1.nextTimerId ∧
      (∀ t ∈ w1.timers, t ∈ w.timers ∨ w.nextTimerId ≤ t.id) := by
  induction as with
  | nil =>
    intro w w1 h
    simp only [run, Option.some.injEq] at h
    subst h
    exact ⟨rfl, Nat.le_refl _, Nat.le_refl _, fun t ht => Or.inl ht⟩
  | cons a as ih =>
    intro w w1 h
    simp only [run] at h
    cases hs : step w a with
    | none => simp [hs] at h
    | some wm =>
      simp only [hs] at h
      rcases step_frame w wm a hs with ⟨hl, hn, hid, hnew, _⟩
      rcases ih wm w1 h with ⟨hl1, hn1, hid1, hnew1⟩
      refine ⟨hl1.trans hl, Nat.le_trans hn hn1, Nat.le_trans hid hid1, ?_⟩
      intro t ht
      rcases hnew1 t ht with h1 | h1
      · exact hnew t h1
      · exact Or.inr (Nat.le_trans hid h1)

/-- A timer that is the only pending one with its handle, once the handle has
been handed out, is still the one run under that handle after any sequence of
steps, and it is not run before it is due. -/
theorem fire_scheduled (w : World) (t0 : Timer) (hid : t0.id < w.nextTimerId)
    (huniq : ∀ t ∈ w.timers, t.id = t0.id → t = t0) (as : List Action) (w2 w3 : World)
    (hrun : run w as = some w2) (hfire : step w2 (.fire t0.id) = some w3) :
    t0.due ≤ w2.now ∧
      ∃ pre post, w2.timers = pre ++ t0 :: post ∧
        w3 = runCallback { w2 with timers := pre ++ post } t0.cb := by
  rcases run_frame as w w2 hrun with ⟨_, _, _, hnew⟩
  simp only [step, fireTimer] at hfire
  cases htake : takeTimer t0.id w2.timers with
  | none => simp [htake] at hfire
  | some r =>
    rcases r with ⟨pre, u, post⟩
    simp only [htake] at hfire
    rcases takeTimer_eq _ _ _ _ _ htake with ⟨hsplit, hu⟩
    have hmem : u ∈ w2.timers := by
      rw [hsplit]
      exact List.mem_append_right _ (List.mem_cons_self _ _)
    have hu0 : u = t0 := by
      rcases hnew u hmem with h1 | h1
      · exact huniq u h1 hu
      · omega
    subst hu0
    split at hfire
    · rename_i hguard
      simp only [Option.some.injEq] at hfire
      exact ⟨hguard.1, pre, post, hsplit, hfire.symm⟩
    · simp at hfire

/-- No `navigate` timer among timers means no location pending. -/
theorem pendingNavigations_eq_nil (ts : List Timer)
    (h : ∀ t ∈ ts, ∀ href, t.cb ≠ .navigate href) : pendingNavigations ts = [] := by
  induction ts with
  | nil => rfl
  | cons t ts ih =>
    have h1 := h t (List.mem_cons_self _ _)
    have h2 := ih (fun u hu => h u (List.mem_cons_of_mem _ hu))
    cases hcb : t.cb with
    | navigate href => exact absurd hcb (h1 href)
    | clearTransition b => simp [pendingNavigations, hcb] at h2 ⊢; exact h2
    | typeWriter => simp [pendingNavigations, hcb] at h2 ⊢; exact h2

/-- No location pending means no `navigate` timer among the timers. -/
theorem no_navigate_of_pending_nil (ts : List Timer) (h : pendingNavigations ts = []) :
    ∀ t ∈ ts, ∀ href, t.cb ≠ .navigate href := by
  induction ts with
  | nil => intro t ht; simp at ht
  | cons u us ih =>
    intro t ht href hcb
    cases hu : u.cb with
    | navigate h1 => simp [pendingNavigations, hu] at h
    | clearTransition b =>
      have h2 : pendingNavigations us = [] := by simpa [pendingNavigations, hu] using h
      rcases List.mem_cons.mp ht with h3 | h3
      · subst h3; rw [hu] at hcb; cases hcb
      · exact ih h2 t h3 href hcb
    | typeWriter =>
      have h2 : pendingNavigations us = [] := by simpa [pendingNavigations, hu] using h
      rcases List.mem_cons.mp ht with h3 | h3
      · subst h3; rw [hu] at hcb; cases hcb
      · exact ih h2 t h3 href hcb

theorem pendingNavigations_append (xs ys : List Timer) :
    pendingNavigations (xs ++ ys) = pendingNavigations xs ++ pendingNavigations ys := by
  simp [pendingNavigations]

theorem pendingNavigations_cons (t : Timer) (ts : List Timer) :
    pendingNavigations (t :: ts) =
      (match t.cb with
        | .navigate href => [href.getD "null"]
        | _ => []) ++ pendingNavigations ts := by
  cases h : t.cb <;> simp [pendingNavigations, h]

/-- One step and the navigations: what has been assigned to the location
followed by what the pending timers will assign grows exactly by the location
a click asks for; `navigate` timers run in the order they were scheduled. -/
theorem step_navigations (w w1 : World) (a : Action) (hinv : w.NavigateDelays)
    (h : step w a = some w1) :
    w1.NavigateDelays ∧
      w1.navigations ++ pendingNavigations w1.timers =
        w.navigations ++ pendingNavigations w.timers ++ clickedLocation w.links a := by
  cases a with
  | tick dt =>
    simp only [step, Option.some.injEq] at h
    subst h
    exact ⟨hinv, by simp [clickedLocation]⟩
  | mousemove b rect x y =>
    simp only [step] at h
    split at h
    · simp only [Option.some.injEq] at h
      subst h
      simp only [mousemoveHandler]
      cases w.magnets[b]? <;> exact ⟨hinv, by simp [clickedLocation]⟩
    · simp at h
  | mouseleave b =>
    simp only [step] at h
    split at h
    · simp only [Option.some.injEq] at h
      subst h
      simp only [mouseleaveHandler]
      cases w.magnets[b]? with
      | none => exact ⟨hinv, by simp [clickedLocation]⟩
      | some btn =>
        constructor
        · intro t ht href hcb
          rcases List.mem_append.mp ht with h1 | h1
          · exact hinv t h1 href hcb
          · rw [List.mem_singleton.mp h1] at hcb
            cases hcb
        · simp [setTimeout, pendingNavigations_append, pendingNavigations_cons,
            pendingNavigations, clickedLocation]
    · simp at h
  | click l =>
    simp only [step, dispatchClick] at h
    cases hl : w.links[l]? with
    | none => simp [hl] at h
    | some link =>
      simp only [hl, clickHandler, if_true, Option.some.injEq] at h
      subst h
      constructor
      · intro t ht href hcb
        rcases List.mem_append.mp ht with h1 | h1
        · exact hinv t h1 href hcb
        · rw [List.mem_singleton.mp h1]
      · simp [setTimeout, pendingNavigations_append, pendingNavigations_cons,
          pendingNavigations, clickedLocation, hl]
  | fire id =>
    simp only [step, fireTimer] at h
    cases htake : takeTimer id w.timers with
    | none => simp [htake] at h
    | some r =>
      rcases r with ⟨pre, u, post⟩
      simp only [htake] at h
      split at h
      · rename_i hguard
        simp only [Option.some.injEq] at h
        rcases takeTimer_eq id _ _ _ _ htake with ⟨hsplit, _⟩
        rcases runCallback_frame { w with timers := pre ++ post } u.cb with
          ⟨_, _, htimers, hnav⟩
        rw [h] at htimers hnav
        simp only at htimers hnav
        have hsub : ∀ t ∈ pre ++ post, t ∈ w.timers := by
          intro t ht
          rw [hsplit]
          rcases List.mem_append.mp ht with h1 | h1
          · exact List.mem_append_left _ h1
          · exact List.mem_append_right _ (List.mem_cons_of_mem _ h1)
        have hpend : pendingNavigations w1.timers = pendingNavigations (pre ++ post) := by
          rcases htimers with ⟨h1, _⟩ | ⟨h1, _⟩
          · rw [h1]
          · rw [h1, pendingNavigations_append]
            simp [pendingNavigations]
        constructor
        · intro t ht href hcb
          rcases htimers with ⟨h1, _⟩ | ⟨h1, _⟩
          · rw [h1] at ht
            exact hinv t (hsub t ht) href hcb
          · rw [h1] at ht
            rcases List.mem_append.mp ht with h3 | h3
            · exact hinv t (hsub t h3) href hcb
            · rw [List.mem_singleton.mp h3] at hcb
              cases hcb
        · rw [hpend, hnav, hsplit]
          simp only [clickedLocation, List.append_nil, pendingNavigations_append,
            pendingNavigations_cons]
          cases hcb : u.cb with
          | clearTransition b => simp
          | typeWriter => simp
          | navigate href =>
            have hu : u ∈ w.timers := by
              rw [hsplit]
              exact List.mem_append_right _ (List.mem_cons_self _ _)
            have hdelay : u.delay = 300 := hinv u hu href hcb
            have hpre : pendingNavigations pre = [] := by
              apply pendingNavigations_eq_nil
              intro p hp href1 hcb1
              have h1 : p.delay = 300 :=
                hinv p (by rw [hsplit]; exact List.mem_append_left _ hp) href1 hcb1
              have h2 := hguard.2 p hp
              omega
            simp [hpre]
      · simp at h

/-- A sequence of steps and the navigations. -/
theorem run_navigations (as : List Action) :
    ∀ w w1 : World, w.NavigateDelays → run w as = some w1 →
      w1.NavigateDelays ∧
        w1.navigations ++ pendingNavigations w1.timers =
          w.navigations ++ pendingNavigations w.timers ++ clickedLocations w.links as := by
  induction as with
  | nil =>
    intro w w1 hinv h
    simp only [run, Option.some.injEq] at h
    subst h
    exact ⟨hinv, by simp [clickedLocations]⟩
  | cons a as ih =>
    intro w w1 hinv h
    simp only [run] at h
    cases hs : step w a with
    | none => simp [hs] at h
    | some wm =>
      simp only [hs] at h
      rcases step_navigations w wm a hinv hs with ⟨hinv1, heq1⟩
      rcases ih wm w1 hinv1 h with ⟨hinv2, heq2⟩
      refine ⟨hinv2, ?_⟩
      rw [heq2, heq1, (step_frame w wm a hs).1]
      simp [clickedLocations]

/-- A click that can happen asks for exactly one location. -/
theorem clickedLocations_length (as : List Action) :
    ∀ w w1 : World, run w as = some w1 →
      (clickedLocations w.links as).length = as.countP isClick := by
  induction as with
  | nil => intro w w1 _; rfl
  | cons a as ih =>
    intro w w1 h
    simp only [run] at h
    cases hs : step w a with
    | none => simp [hs] at h
    | some wm =>
      simp only [hs] at h
      have h1 := ih wm w1 h
      rw [(step_frame w wm a hs).1] at h1
      have h2 : (clickedLocation w.links a).length = if isClick a then 1 else 0 := by
        cases a with
        | click l =>
          simp only [step, dispatchClick] at hs
          cases hl : w.links[l]? with
          | none => simp [hl] at hs
          | some link => simp [clickedLocation, hl, isClick]
        | tick dt => rfl
        | mousemove b rect x y => rfl
        | mouseleave b => rfl
        | fire id => rfl
      simp only [clickedLocations, List.map_cons, List.flatten_cons, List.length_append] at h1 ⊢
      rw [h1, h2, List.countP_cons]
      omega

/-- A run over a sequence split at one action goes through the page before
that action and the page after it. -/
theorem run_split (pre : List Action) (a : Action) (post : List Action) :
    ∀ w w1 : World, run w (pre ++ a :: post) = some w1 →
      ∃ wa wb, run w pre = some wa ∧ step wa a = some wb ∧ run wb post = some w1 := by
  induction pre with
  | nil =>
    intro w w1 h
    simp only [List.nil_append, run] at h
    cases hs : step w a with
    | none => simp [hs] at h
    | some wb =>
      simp only [hs] at h
      exact ⟨w, wb, rfl, hs, h⟩
  | cons p pre ih =>
    intro w w1 h
    simp only [List.cons_append, run] at h
    cases hs : step w p with
    | none => simp [hs] at h
    | some wm =>
      simp only [hs] at h
      rcases ih wm w1 h with ⟨wa, wb, h1, h2, h3⟩
      exact ⟨wa, wb, by simp [run, hs, h1], h2, h3⟩

/-- A click schedules exactly one timer, of 300ms, that will assign the
link's `href`, and assigns nothing itself. -/
theorem step_click (w w1 : World) (l : Nat) (h : step w (.click l) = some w1) :
    ∃ link, w.links[l]? = some link ∧
      w1.timers = w.timers ++
        [{ id := w.nextTimerId, due := w.now + 300, delay := 300, cb := .navigate link.href }] ∧
      w1.navigations = w.navigations := by
  simp only [step, dispatchClick] at h
  cases hl : w.links[l]? with
  | none => simp [hl] at h
  | some link =>
    simp only [hl, clickHandler, if_true, Option.some.injEq] at h
    subst h
    exact ⟨link, rfl, rfl, rfl⟩

/-- A step other than a click schedules no `navigate` timer, and a step other
than the run of a timer assigns nothing to the location. -/
theorem step_other (w w1 : World) (a : Action) (h : step w a = some w1) :
    (isClick a = false → ∀ t ∈ w1.timers, ∀ href, t.cb = .navigate href → t ∈ w.timers) ∧
    (w1.navigations = w.navigations ∨ ∃ id, a = .fire id) := by
  cases a with
  | tick dt =>
    simp only [step, Option.some.injEq] at h
    subst h
    exact ⟨fun _ t ht _ _ => ht, Or.inl rfl⟩
  | mousemove b rect x y =>
    simp only [step] at h
    split at h
    · simp only [Option.some.injEq] at h
      subst h
      simp only [mousemoveHandler]
      cases w.magnets[b]? <;> exact ⟨fun _ t ht _ _ => ht, Or.inl rfl⟩
    · simp at h
  | mouseleave b =>
    simp only [step] at h
    split at h
    · simp only [Option.some.injEq] at h
      subst h
      simp only [mouseleaveHandler]
      cases w.magnets[b]? with
      | none => exact ⟨fun _ t ht _ _ => ht, Or.inl rfl⟩
      | some btn =>
        refine ⟨?_, Or.inl rfl⟩
        intro _ t ht href hcb
        rcases List.mem_append.mp ht with h1 | h1
        · exact h1
        · rw [List.mem_singleton.mp h1] at hcb
          cases hcb
    · simp at h
  | click l =>
    rcases step_click w w1 l h with ⟨_, _, _, hnav⟩
    exact ⟨fun hc => by simp [isClick] at hc, Or.inl hnav⟩
  | fire id =>
    refine ⟨?_, Or.inr ⟨id, rfl⟩⟩
    intro _ t ht href hcb
    simp only [step, fireTimer] at h
    cases htake : takeTimer id w.timers with
    | none => simp [htake] at h
    | some r =>
      rcases r with ⟨pre, u, post⟩
      simp only [htake] at h
      split at h
      · simp only [Option.some.injEq] at h
        rcases takeTimer_eq id _ _ _ _ htake with ⟨hsplit, _⟩
        rcases runCallback_frame { w with timers := pre ++ post } u.cb with ⟨_, _, htimers, _⟩
        rw [h] at htimers
        simp only at htimers
        have hsub : ∀ t ∈ pre ++ post, t ∈ w.timers := by
          intro t ht
          rw [hsplit]
          rcases List.mem_append.mp ht with h1 | h1
          · exact List.mem_append_left _ h1
          · exact List.mem_append_right _ (List.mem_cons_of_mem _ h1)
        rcases htimers with ⟨h1, _⟩ | ⟨h1, _⟩
        · rw [h1] at ht
          exact hsub t ht
        · rw [h1] at ht
          rcases List.mem_append.mp ht with h3 | h3
          · exact hsub t h3
          · rw [List.mem_singleton.mp h3] at hcb
            cases hcb
      · simp at h

/-! ### The greeting along the event loop -/

/-- A timer callback keeps the text, never lowers the index and keeps the
element showing the first `i` characters. -/
theorem runCallback_revealed (w : World) (cb : Callback) (h : w.Revealed) :
    (runCallback w cb).Revealed ∧ (runCallback w cb).text = w.text ∧
      w.i ≤ (runCallback w cb).i := by
  cases cb with
  | clearTransition b =>
    simp only [runCallback, clearTransition]
    cases w.magnets[b]? <;> exact ⟨h, rfl, Nat.le_refl _⟩
  | navigate href => exact ⟨h, rfl, Nat.le_refl _⟩
  | typeWriter =>
    simp only [runCallback]
    cases htw : typeWriter w with
    | error e => exact ⟨h, rfl, Nat.le_refl _⟩
    | ok w1 =>
      rcases typeWriter_cases w w1 htw with rfl | ⟨html, hel, hlt, rfl⟩
      · exact ⟨h, rfl, Nat.le_refl _⟩
      · refine ⟨⟨hlt, ?_⟩, rfl, Nat.le_succ _⟩
        have hhtml : html = w.text.take w.i := by
          have := h.2
          rw [hel] at this
          exact Option.some.inj this
        simp [setTimeout, hhtml, charAt_eq, List.take_succ]

/-- A step keeps the text, never lowers the index and keeps the element
showing the first `i` characters. -/
theorem step_revealed (w w1 : World) (a : Action) (h : w.Revealed)
    (hs : step w a = some w1) : w1.Revealed ∧ w1.text = w.text ∧ w.i ≤ w1.i := by
  cases a with
  | tick dt =>
    simp only [step, Option.some.injEq] at hs
    subst hs
    exact ⟨h, rfl, Nat.le_refl _⟩
  | mousemove b rect x y =>
    simp only [step] at hs
    split at hs
    · simp only [Option.some.injEq] at hs
      subst hs
      simp only [mousemoveHandler]
      cases w.magnets[b]? <;> exact ⟨h, rfl, Nat.le_refl _⟩
    · simp at hs
  | mouseleave b =>
    simp only [step] at hs
    split at hs
    · simp only [Option.some.injEq] at hs
      subst hs
      simp only [mouseleaveHandler]
      cases w.magnets[b]? <;> exact ⟨h, rfl, Nat.le_refl _⟩
    · simp at hs
  | click l =>
    simp only [step, dispatchClick] at hs
    cases hl : w.links[l]? with
    | none => simp [hl] at hs
    | some link =>
      simp only [hl, clickHandler, if_true, Option.some.injEq] at hs
      subst hs
      exact ⟨h, rfl, Nat.le_refl _⟩
  | fire id =>
    simp only [step, fireTimer] at hs
    cases htake : takeTimer id w.timers with
    | none => simp [htake] at hs
    | some r =>
      rcases r with ⟨pre, u, post⟩
      simp only [htake] at hs
      split at hs
      · simp only [Option.some.injEq] at hs
        subst hs
        exact runCallback_revealed { w with timers := pre ++ post } u.cb h
      · simp at hs

/-- A sequence of steps keeps the text, never lowers the index and keeps the
element showing the first `i` characters. -/
theorem run_revealed (as : List Action) :
    ∀ w w1 : World, w.Revealed → run w as = some w1 →
      w1.Revealed ∧ w1.text = w.text ∧ w.i ≤ w1.i := by
  induction as with
  | nil =>
    intro w w1 h hr
    simp only [run, Option.some.injEq] at hr
    subst hr
    exact ⟨h, rfl, Nat.le_refl _⟩
  | cons a as ih =>
    intro w w1 h hr
    simp only [run] at hr
    cases hs : step w a with
    | none => simp [hs] at hr
    | some wm =>
      simp only [hs] at hr
      rcases step_revealed w wm a h hs with ⟨h1, ht1, hi1⟩
      rcases ih wm w1 h1 hr with ⟨h2, ht2, hi2⟩
      exact ⟨h2, ht2.trans ht1, Nat.le_trans hi1 hi2⟩

/-- C1: the greeting text is a function of the hour alone: the morning text
below 12, the afternoon text from 12 to 17 (so at hour 14), the evening text
from 18 on, and never the fallback text. -/
theorem greetingText_by_hour (h : Int) :
    (h < 12 → greetingText h = "Good Morning, Niranjan") ∧
    (12 ≤ h → h < 18 → greetingText h = "Good Afternoon, Niranjan") ∧
    (18 ≤ h → greetingText h = "Good Evening, Niranjan") ∧
    greetingText 14 = "Good Afternoon, Niranjan" ∧
    greetingText h ≠ "Welcome Back, Executive" := by
  refine ⟨fun h1 => ?_, fun h1 h2 => ?_, fun h1 => ?_, by decide, ?_⟩
  · simp [greetingText, Id.run, h1]
  · have : ¬ h < 12 := by omega
    simp [greetingText, Id.run, this, h2]
  · have h3 : ¬ h < 12 := by omega
    have h4 : ¬ h < 18 := by omega
    simp [greetingText, Id.run, h3, h4]
  · unfold greetingText
    by_cases h1 : h < 12
    · simp [Id.run, h1]
    · by_cases h2 : h < 18
      · simp [Id.run, h1, h2]
      · simp [Id.run, h1, h2]

/-- C1 at the hours 9, 14 and 20. -/
theorem greetingText_by_hour_witness :
    greetingText 9 = "Good Morning, Niranjan" ∧
    greetingText 14 = "Good Afternoon, Niranjan" ∧
    greetingText 20 = "Good Evening, Niranjan" :=
  ⟨(greetingText_by_hour 9).1 (by decide),
   (greetingText_by_hour 14).2.1 (by decide) (by decide),
   (greetingText_by_hour 20).2.2.1 (by decide)⟩

/-- C2: on a present greeting element that was cleared, after `k` runs of the
reveal step the index is `min k (length t)` and the element shows exactly the
first `min k (length t)` characters of the text `t`; one more run never lowers
the index nor takes it past `length t`; from `length t` runs on, a further
run changes nothing and schedules no timer; and whatever events and timers
follow, the index never decreases, never exceeds `length t`, and the element
shows exactly the first characters of `t` up to the index. -/
theorem typeWriter_reveals (t : List Char) (k : Nat) (w : World)
    (hel : w.greetingEl = some []) (hi : w.i = 0) (ht : w.text = t) :
    ∃ w1 w2, typeWriterRuns k w = .ok w1 ∧ typeWriterRuns (k + 1) w = .ok w2 ∧
      w1.i = min k t.length ∧
      w1.greetingEl = some (t.take (min k t.length)) ∧
      w1.i ≤ w2.i ∧ w2.i ≤ t.length ∧
      (t.length ≤ k → typeWriter w1 = .ok w1 ∧ w2 = w1) ∧
      (∀ as w3, run w1 as = some w3 →
        w1.i ≤ w3.i ∧ w3.i ≤ t.length ∧ w3.greetingEl = some (t.take w3.i)) := by
  subst ht
  have h0 : w.i ≤ w.text.length := by omega
  have hel0 : w.greetingEl = some (w.text.take w.i) := by simp [hel, hi]
  rcases typeWriterRuns_from k w h0 hel0 with ⟨w1, hrun1, htext1, hi1, hhtml1⟩
  rcases typeWriterRuns_from (k + 1) w h0 hel0 with ⟨w2, hrun2, _, hi2, _⟩
  rw [hi] at hi1 hi2 hhtml1
  simp only [Nat.zero_add] at hi1 hi2 hhtml1
  refine ⟨w1, w2, hrun1, hrun2, hi1, hhtml1, ?_, ?_, ?_, ?_⟩
  · rw [hi1, hi2]
    omega
  · rw [hi2]
    omega
  · intro hk
    have hdone : typeWriter w1 = .ok w1 := typeWriter_done w1 (by rw [htext1, hi1]; omega)
    refine ⟨hdone, ?_⟩
    have hsplit : typeWriterRuns (k + 1) w = typeWriter w1 := by
      rw [typeWriterRuns_succ, hrun1]
    rw [hsplit, hdone] at hrun2
    exact (Except.ok.inj hrun2).symm
  · intro as w3 hrun3
    have hrev : w1.Revealed := by
      refine ⟨by rw [htext1, hi1]; omega, ?_⟩
      rw [htext1, hi1, hhtml1]
    rcases run_revealed as w1 w3 hrev hrun3 with ⟨hrev3, htext3, hi3⟩
    have htext : w3.text = w.text := htext3.trans htext1
    refine ⟨hi3, ?_, ?_⟩
    · rw [← htext]
      exact hrev3.1
    · rw [← htext]
      exact hrev3.2

/-- C2 for the afternoon greeting after 5 runs on the cleared sample page. -/
theorem typeWriter_reveals_witness :
    ∃ w1 w2, typeWriterRuns 5 clearedPage = .ok w1 ∧ typeWriterRuns 6 clearedPage = .ok w2 ∧
      w1.i = min 5 clearedPage.text.length ∧
      w1.greetingEl = some (clearedPage.text.take (min 5 clearedPage.text.length)) ∧
      w1.i ≤ w2.i ∧ w2.i ≤ clearedPage.text.length ∧
      (clearedPage.text.length ≤ 5 → typeWriter w1 = .ok w1 ∧ w2 = w1) ∧
      (∀ as w3, run w1 as = some w3 →
        w1.i ≤ w3.i ∧ w3.i ≤ clearedPage.text.length ∧
          w3.greetingEl = some (clearedPage.text.take w3.i)) :=
  typeWriter_reveals clearedPage.text 5 clearedPage rfl rfl rfl

/-- C3, counterexample: for the box `fractionalRect` (left edge `8.3`, width
`0.2`) and the pointer at `(10, 20)` the horizontal component written by the
handler is the double `0.47999999999999976`.  It is not `0.48`, the value of
`0.3 * (10 - (8.3 + 0.2 / 2))`, nor the value of that formula at the doubles
`8.3` and `0.2`, nor what the formula gives when evaluated as written in
JavaScript arithmetic (`0.47999999999999987`). -/
theorem mousemove_translation_not_exact :
    fractionalRect.left = .finite (2336242306698445 / 281474976710656) ∧
    fractionalRect.width = .finite (3602879701896397 / 18014398509481984) ∧
    (mousemoveHandler samplePage 0 fractionalRect (.finite 10) (.finite 20)).magnets[0]? =
      some { transform := .translatePx (.finite (2161727821137837 / 4503599627370496)) (.finite 0)
             transition := "" } ∧
    (2161727821137837 / 4503599627370496 : ℚ) ≠ exactOffset 10 (83 / 10) (2 / 10) ∧
    (2161727821137837 / 4503599627370496 : ℚ) ≠
      exactOffset 10 (2336242306698445 / 281474976710656) (3602879701896397 / 18014398509481984) ∧
    jsOffset (.finite 10) fractionalRect.left fractionalRect.width =
      .finite (4323455642275675 / 9007199254740992) ∧
    JSNumber.finite (2161727821137837 / 4503599627370496) ≠
      jsOffset (.finite 10) fractionalRect.left fractionalRect.width := by
  decide!

/-- C3, amended: the `mousemove` handler of a magnetic button writes the
translation whose components are the binary64 results of
`(clientX - left - width / 2) * 0.3` and `(clientY - top - height / 2) * 0.3`,
each operation rounded to nearest, ties to even, with no clamping, and leaves
the transition alone.  For finite coordinates of magnitude at most `2 ^ 1000`
the components are finite and differ from `0.3 * (clientX - (left + width / 2))`
and `0.3 * (clientY - (top + height / 2))` by at most
`2 ^ -52 * (|clientX| + |left| + |width| / 2) + 2 ^ -1074` (with `clientY`,
`top`, `height` for the second), not always by zero: for the box with left
edge `0.3` and width `24.3` and the pointer at `clientX = 4` inside it the
first component is `-2.5349999999999997`.  For a box centred at `(100, 100)`
and the pointer at `(130, 115)` the components are exactly `9` and `4.5`. -/
theorem mousemove_translation (w : World) (b : Nat) (btn : Button)
    (left top width height clientX clientY : ℚ) (hb : w.magnets[b]? = some btn)
    (hl : |left| ≤ 2 ^ 1000) (ht : |top| ≤ 2 ^ 1000) (hw : |width| ≤ 2 ^ 1000)
    (hh : |height| ≤ 2 ^ 1000) (hx : |clientX| ≤ 2 ^ 1000) (hy : |clientY| ≤ 2 ^ 1000) :
    (∀ (rect : Rect) (px py : JSNumber),
      (mousemoveHandler w b rect px py).magnets[b]? =
        some { transform := .translatePx
                 (((px.sub rect.left).sub (rect.width.div (.finite 2))).mul
                   (.finite (5404319552844595 / 18014398509481984)))
                 (((py.sub rect.top).sub (rect.height.div (.finite 2))).mul
                   (.finite (5404319552844595 / 18014398509481984)))
               transition := btn.transition }) ∧
    (∃ x y : ℚ,
      (mousemoveHandler w b
          { left := .finite left, top := .finite top, width := .finite width,
            height := .finite height } (.finite clientX) (.finite clientY)).magnets[b]? =
        some { transform := .translatePx (.finite x) (.finite y)
               transition := btn.transition } ∧
      |x - exactOffset clientX left width| ≤
        (|clientX| + |left| + |width| / 2) / 2 ^ 52 + 1 / 2 ^ 1074 ∧
      |y - exactOffset clientY top height| ≤
        (|clientY| + |top| + |height| / 2) / 2 ^ 52 + 1 / 2 ^ 1074) ∧
    (mousemoveHandler w b tieRect (.finite 4) (.finite 20)).magnets[b]? =
      some { transform := .translatePx (.finite (-5708312527692103 / 2251799813685248)) (.finite 0)
             transition := btn.transition } ∧
    (-5708312527692103 / 2251799813685248 : ℚ) ≠ exactOffset 4 (3 / 10) (243 / 10) ∧
    (mousemoveHandler w b sampleRect (.finite 130) (.finite 115)).magnets[b]? =
      some { transform := .translatePx (.finite 9) (.finite (9 / 2))
             transition := btn.transition } := by
  have hlt : b < w.magnets.length := by
    rcases List.getElem?_eq_some.mp hb with ⟨h, _⟩
    exact h
  have h2 : JSNumber.lit 2 = .finite 2 := by decide!
  have h3 : JSNumber.lit (3 / 10) = .finite (5404319552844595 / 18014398509481984) := by decide!
  have hformula : ∀ (rect : Rect) (px py : JSNumber),
      (mousemoveHandler w b rect px py).magnets[b]? =
        some { transform := .translatePx
                 (((px.sub rect.left).sub (rect.width.div (.finite 2))).mul
                   (.finite (5404319552844595 / 18014398509481984)))
                 (((py.sub rect.top).sub (rect.height.div (.finite 2))).mul
                   (.finite (5404319552844595 / 18014398509481984)))
               transition := btn.transition } := by
    intro rect px py
    simp only [mousemoveHandler, hb, h2, h3]
    simp [hlt]
  have htx : (((JSNumber.finite 4).sub tieRect.left).sub (tieRect.width.div (.finite 2))).mul
      (.finite (5404319552844595 / 18014398509481984)) =
        .finite (-5708312527692103 / 2251799813685248) := by decide!
  have hty : (((JSNumber.finite 20).sub tieRect.top).sub (tieRect.height.div (.finite 2))).mul
      (.finite (5404319552844595 / 18014398509481984)) = .finite 0 := by decide!
  have hsx : (((JSNumber.finite 130).sub sampleRect.left).sub
      (sampleRect.width.div (.finite 2))).mul
        (.finite (5404319552844595 / 18014398509481984)) = .finite 9 := by decide!
  have hsy : (((JSNumber.finite 115).sub sampleRect.top).sub
      (sampleRect.height.div (.finite 2))).mul
        (.finite (5404319552844595 / 18014398509481984)) = .finite (9 / 2) := by decide!
  refine ⟨hformula, ?_, ?_, by decide!, ?_⟩
  · obtain ⟨x, hxeq, hxerr⟩ := offset_near clientX left width hx hl hw
    obtain ⟨y, hyeq, hyerr⟩ := offset_near clientY top height hy ht hh
    refine ⟨x, y, ?_, hxerr, hyerr⟩
    rw [hformula, hxeq, hyeq]
  · rw [hformula, htx, hty]
  · rw [hformula, hsx, hsy]

/-- C3 on the sample page, whose button carries no style yet, for the box
`(50, 50, 100, 100)` and the pointer at `(130, 115)`. -/
theorem mousemove_translation_witness :
    (∃ x y : ℚ,
      (mousemoveHandler samplePage 0
          { left := .finite 50, top := .finite 50, width := .finite 100,
            height := .finite 100 } (.finite 130) (.finite 115)).magnets[0]? =
        some { transform := .translatePx (.finite x) (.finite y), transition := "" } ∧
      |x - exactOffset 130 50 100| ≤ (|(130 : ℚ)| + |(50 : ℚ)| + |(100 : ℚ)| / 2) / 2 ^ 52 + 1 / 2 ^ 1074 ∧
      |y - exactOffset 115 50 100| ≤ (|(115 : ℚ)| + |(50 : ℚ)| + |(100 : ℚ)| / 2) / 2 ^ 52 + 1 / 2 ^ 1074) ∧
    (mousemoveHandler samplePage 0 sampleRect (.finite 130) (.finite 115)).magnets[0]? =
      some { transform := .translatePx (.finite 9) (.finite (9 / 2)), transition := "" } :=
  have hsmall : ∀ q : ℚ, |q| ≤ 130 → |q| ≤ 2 ^ 1000 := fun q hq =>
    le_trans hq (le_trans (by norm_num) (pow_le_pow_right₀ (by norm_num : (1 : ℚ) ≤ 2) (by norm_num : 8 ≤ 1000)))
  have h := mousemove_translation samplePage 0 { transform := .str "", transition := "" }
    50 50 100 100 130 115 (by decide) (hsmall _ (by norm_num [abs_le])) (hsmall _ (by norm_num [abs_le]))
    (hsmall _ (by norm_num [abs_le])) (hsmall _ (by norm_num [abs_le])) (hsmall _ (by norm_num [abs_le]))
    (hsmall _ (by norm_num [abs_le]))
  ⟨h.2.1, h.2.2.2.2⟩

/-- C7: without a greeting element `initGreeting` returns normally and the
page, its pending timers included, is as before. -/
theorem initGreeting_absent (w : World) (hour : Int) (h : w.greetingEl = none) :
    initGreeting w hour = .ok w := by
  simp [initGreeting, h, pure, Except.pure]

/-- C7 on the sample page with its greeting element taken out. -/
theorem initGreeting_absent_witness :
    initGreeting { samplePage with greetingEl := none } 14 =
      .ok { samplePage with greetingEl := none } :=
  initGreeting_absent { samplePage with greetingEl := none } 14 rfl

/-- C8: right after the `mouseleave` handler of a magnetic button has run,
whatever its style was before, its transform is `translate(0, 0)` and its
transition is `transform 0.3s ease-out`. -/
theorem mouseleave_resets (w : World) (b : Nat) (btn : Button) (hb : w.magnets[b]? = some btn) :
    (mouseleaveHandler w b).magnets[b]? =
      some { transform := .str "translate(0, 0)", transition := "transform 0.3s ease-out" } := by
  have hlt : b < w.magnets.length := by
    rcases List.getElem?_eq_some.mp hb with ⟨h, _⟩
    exact h
  simp [mouseleaveHandler, hb, setTimeout, hlt]

/-- C8 on the sample page after the pointer has moved over the button. -/
theorem mouseleave_resets_witness :
    (mouseleaveHandler
        (mousemoveHandler samplePage 0 sampleRect (.finite 130) (.finite 115)) 0).magnets[0]? =
      some { transform := .str "translate(0, 0)", transition := "transform 0.3s ease-out" } :=
  mouseleave_resets _ 0 { transform := .translatePx (.finite 9) (.finite (9 / 2)), transition := "" }
    (by decide!)

/-- C4, counterexample: the first link of the sample page is clicked at time 0
and again at time 100; the timer of the first click then assigns `/dashboard`
to the location at time 300, only 200ms after the second click on that link. -/
theorem navigation_within_300ms_of_second_click :
    (run samplePage [.click 0, .tick 100]).map (fun w => (w.now, w.navigations)) =
      some (100, []) ∧
    (run samplePage [.click 0, .tick 100, .click 0, .tick 200]).map
        (fun w => (w.now, w.navigations)) = some (300, []) ∧
    (run samplePage [.click 0, .tick 100, .click 0, .tick 200, .fire 0]).map
        (fun w => (w.now, w.navigations)) = some (300, ["/dashboard"]) ∧
    300 < 100 + 300 := by
  decide!

/-- C4, amended: a click on a link with destination `u` prevents the default
navigation, assigns nothing to the location and schedules exactly one timer,
with a delay of 300ms, whose only effect is to assign `u` (the `href` read at
the click) to the location; that timer runs no earlier than 300ms after the
click, whatever happens in between. -/
theorem click_schedules_navigation (w : World) (l : Nat) (u : String)
    (hl : w.links[l]? = some { href := some u }) (hf : w.HandlesFresh) :
    (clickHandler w (some u) { defaultPrevented := false }).2.defaultPrevented = true ∧
    ∃ w1, step w (.click l) = some w1 ∧
      w1.navigations = w.navigations ∧
      w1.timers = w.timers ++
        [{ id := w.nextTimerId, due := w.now + 300, delay := 300, cb := .navigate (some u) }] ∧
      (∀ v : World, runCallback v (.navigate (some u)) =
        { v with navigations := v.navigations ++ [u] }) ∧
      (∀ as w2 w3, run w1 as = some w2 → step w2 (.fire w.nextTimerId) = some w3 →
        w.now + 300 ≤ w2.now ∧ w3.navigations = w2.navigations ++ [u]) := by
  refine ⟨rfl, ?_⟩
  have hstep : step w (.click l) = some (setTimeout
      { w with bodyOpacity := "0", bodyTransition := "opacity 0.3s ease" }
      (.navigate (some u)) 300) := by
    simp [step, dispatchClick, hl, clickHandler]
  refine ⟨_, hstep, rfl, rfl, fun v => rfl, ?_⟩
  intro as w2 w3 hrun hfire
  have huniq : ∀ t ∈ (setTimeout
      { w with bodyOpacity := "0", bodyTransition := "opacity 0.3s ease" }
      (.navigate (some u)) 300).timers,
      t.id = w.nextTimerId → t = (⟨w.nextTimerId, w.now + 300, 300, .navigate (some u)⟩ : Timer) := by
    intro t ht hid
    rcases List.mem_append.mp ht with h1 | h1
    · have := hf t h1
      omega
    · exact List.mem_singleton.mp h1
  rcases fire_scheduled _ ⟨w.nextTimerId, w.now + 300, 300, .navigate (some u)⟩
      (Nat.lt_succ_self _) huniq as w2 w3 hrun hfire with
    ⟨hdue, pre, post, _, hw3⟩
  refine ⟨hdue, ?_⟩
  rw [hw3]
  rfl

/-- C4 for a click on the first link of the sample page. -/
theorem click_schedules_navigation_witness :
    (clickHandler samplePage (some "/dashboard") { defaultPrevented := false }).2.defaultPrevented
      = true ∧
    ∃ w1, step samplePage (.click 0) = some w1 ∧
      w1.navigations = samplePage.navigations ∧
      w1.timers = samplePage.timers ++
        [{ id := samplePage.nextTimerId, due := samplePage.now + 300, delay := 300,
           cb := .navigate (some "/dashboard") }] ∧
      (∀ v : World, runCallback v (.navigate (some "/dashboard")) =
        { v with navigations := v.navigations ++ ["/dashboard"] }) ∧
      (∀ as w2 w3, run w1 as = some w2 → step w2 (.fire samplePage.nextTimerId) = some w3 →
        samplePage.now + 300 ≤ w2.now ∧ w3.navigations = w2.navigations ++ ["/dashboard"]) :=
  click_schedules_navigation samplePage 0 "/dashboard" (by decide)
    (fun t ht => absurd ht (List.not_mem_nil t))

/-- C5, counterexample: the pointer leaves the button of the sample page at
time 0 and again at time 100; the timer of the first leave then clears the
transition at time 300, only 200ms after the second leave. -/
theorem transition_cleared_within_300ms_of_second_leave :
    (run samplePage [.mouseleave 0, .tick 100]).map (fun w => w.now) = some 100 ∧
    (run samplePage [.mouseleave 0, .tick 100, .mouseleave 0, .tick 200]).map
        (fun w => (w.now, w.magnets.map (fun btn => btn.transition))) =
      some (300, ["transform 0.3s ease-out"]) ∧
    (run samplePage [.mouseleave 0, .tick 100, .mouseleave 0, .tick 200, .fire 0]).map
        (fun w => (w.now, w.magnets.map (fun btn => btn.transition))) = some (300, [""]) ∧
    300 < 100 + 300 := by
  decide!

/-- C5, amended: the `mouseleave` handler schedules one timer of 300ms that
clears the transition, and that timer runs no earlier than 300ms after the
leave, whatever moves, leaves, clicks and other timers come in between (the
timer of an earlier leave may clear the transition sooner). -/
theorem snapback_clear_not_before_300 (w : World) (b : Nat) (as : List Action) (w2 w3 : World)
    (hb : b < w.magnets.length) (hf : w.HandlesFresh)
    (hrun : run w (.mouseleave b :: as) = some w2)
    (hfire : step w2 (.fire w.nextTimerId) = some w3) :
    (mouseleaveHandler w b).timers = w.timers ++
      [{ id := w.nextTimerId, due := w.now + 300, delay := 300, cb := .clearTransition b }] ∧
    w.now + 300 ≤ w2.now ∧
    ∃ pre post, w3 = clearTransition { w2 with timers := pre ++ post } b := by
  have htimers : (mouseleaveHandler w b).timers = w.timers ++
      [{ id := w.nextTimerId, due := w.now + 300, delay := 300, cb := .clearTransition b }] := by
    have hsome : ∃ btn, w.magnets[b]? = some btn := ⟨w.magnets[b], by simp [hb]⟩
    rcases hsome with ⟨btn, hbtn⟩
    simp [mouseleaveHandler, hbtn, setTimeout]
  have hid : (mouseleaveHandler w b).nextTimerId = w.nextTimerId + 1 := by
    have hsome : ∃ btn, w.magnets[b]? = some btn := ⟨w.magnets[b], by simp [hb]⟩
    rcases hsome with ⟨btn, hbtn⟩
    simp [mouseleaveHandler, hbtn, setTimeout]
  have hnow : (mouseleaveHandler w b).now = w.now := by
    simp only [mouseleaveHandler]
    cases w.magnets[b]? <;> rfl
  have hrun1 : run (mouseleaveHandler w b) as = some w2 := by
    simpa [run, step, hb] using hrun
  have huniq : ∀ t ∈ (mouseleaveHandler w b).timers, t.id = w.nextTimerId →
      t = (⟨w.nextTimerId, w.now + 300, 300, .clearTransition b⟩ : Timer) := by
    intro t ht hid
    rw [htimers] at ht
    rcases List.mem_append.mp ht with h1 | h1
    · have := hf t h1
      omega
    · exact List.mem_singleton.mp h1
  rcases fire_scheduled _ ⟨w.nextTimerId, w.now + 300, 300, .clearTransition b⟩
      (by rw [hid]; exact Nat.lt_succ_self _) huniq as w2 w3 hrun1 hfire with
    ⟨hdue, pre, post, _, hw3⟩
  exact ⟨htimers, hdue, pre, post, hw3⟩

/-- C5 on the sample page: a leave at time 0, the timer run at time 300. -/
theorem snapback_clear_not_before_300_witness :
    (mouseleaveHandler samplePage 0).timers = samplePage.timers ++
      [{ id := samplePage.nextTimerId, due := samplePage.now + 300, delay := 300,
         cb := .clearTransition 0 }] ∧
    samplePage.now + 300 ≤
      ({ samplePage with
          now := 300
          magnets := [{ transform := .str "translate(0, 0)", transition := "transform 0.3s ease-out" }]
          timers := [{ id := 0, due := 300, delay := 300, cb := .clearTransition 0 }]
          nextTimerId := 1 } : World).now ∧
    ∃ pre post,
      ({ samplePage with
          now := 300
          magnets := [{ transform := .str "translate(0, 0)", transition := "" }]
          nextTimerId := 1 } : World) =
        clearTransition
          { ({ samplePage with
              now := 300
              magnets := [{ transform := .str "translate(0, 0)",
                            transition := "transform 0.3s ease-out" }]
              timers := [{ id := 0, due := 300, delay := 300, cb := .clearTransition 0 }]
              nextTimerId := 1 } : World) with timers := pre ++ post } 0 :=
  snapback_clear_not_before_300 samplePage 0 [.tick 300] _ _ (by decide)
    (fun t ht => absurd ht (List.not_mem_nil t)) (by decide!) (by decide!)

/-- C6, counterexample: with every timer run exactly at its 50ms delay the
greeting element already shows all 24 characters of the afternoon text at
1150ms, before 1200ms. -/
theorem greeting_complete_before_1200 :
    "Good Afternoon, Niranjan".toList.length = 24 ∧
    (greetingAfter 23).map (fun w => (w.now, w.greetingEl)) =
      some (1150, some "Good Afternoon, Niranjan".toList) ∧
    1150 < 24 * 50 := by
  decide!

/-- C6, amended: with every timer run exactly at its 50ms delay, the afternoon
text of 24 characters shows its first `k + 1` characters at `50 * k` ms for
`k = 0, ..., 23`, so that the element first shows all 24 characters at
23 x 50ms = 1150ms after the start of `initGreeting`; the last timer runs at
1200ms, changes nothing and leaves no timer pending. -/
theorem greeting_complete_at_1150 :
    (∀ k : Fin 24, (greetingAfter k).map (fun w => (w.now, w.greetingEl)) =
      some (50 * k.val, some ("Good Afternoon, Niranjan".toList.take (k.val + 1)))) ∧
    (∀ k : Fin 23, (greetingAfter k).map (fun w => w.greetingEl) ≠
      some (some "Good Afternoon, Niranjan".toList)) ∧
    (greetingAfter 23).map (fun w => (w.now, w.greetingEl)) =
      some (1150, some "Good Afternoon, Niranjan".toList) ∧
    (greetingAfter 24).map (fun w => (w.now, w.greetingEl, w.timers)) =
      some (1200, some "Good Afternoon, Niranjan".toList, []) := by
  decide!

/-- C9: from a page with no navigation pending, along any sequence of steps
with `n` clicks on navigation links: each click schedules exactly one timer,
of 300ms, that will assign the clicked link's `href`, and assigns nothing
itself; no other step schedules such a timer, nothing but the run of a timer
assigns the location, and no step removes a pending timer except by running
it (none is cancelled); so the `n` timers are either still pending or have
run, in the order of the clicks; once none is pending and `n >= 1`, the
location is the destination of the last click. -/
theorem last_click_wins (w w1 : World) (as : List Action)
    (hpend : pendingNavigations w.timers = []) (hrun : run w as = some w1) :
    (clickedLocations w.links as).length = as.countP isClick ∧
    (∀ pre l post, as = pre ++ .click l :: post →
      ∃ wa wb link, run w pre = some wa ∧ step wa (.click l) = some wb ∧
        run wb post = some w1 ∧ wa.links[l]? = some link ∧
        wb.timers = wa.timers ++
          [{ id := wa.nextTimerId, due := wa.now + 300, delay := 300,
             cb := .navigate link.href }] ∧
        wb.navigations = wa.navigations) ∧
    (∀ pre a post, as = pre ++ a :: post →
      ∃ wa wb, run w pre = some wa ∧ step wa a = some wb ∧ run wb post = some w1 ∧
        (∀ t ∈ wa.timers, t ∈ wb.timers ∨ a = .fire t.id) ∧
        (isClick a = false →
          ∀ t ∈ wb.timers, ∀ href, t.cb = .navigate href → t ∈ wa.timers) ∧
        (wb.navigations = wa.navigations ∨ ∃ id, a = .fire id)) ∧
    w1.navigations ++ pendingNavigations w1.timers =
      w.navigations ++ clickedLocations w.links as ∧
    w1.NavigateDelays ∧
    (pendingNavigations w1.timers = [] → 1 ≤ as.countP isClick →
      w1.location = (clickedLocations w.links as).getLast?) := by
  have hinv : w.NavigateDelays := by
    intro t ht href hcb
    exact absurd hcb (no_navigate_of_pending_nil _ hpend t ht href)
  have hlen := clickedLocations_length as w w1 hrun
  rcases run_navigations as w w1 hinv hrun with ⟨hinv1, heq⟩
  rw [hpend, List.append_nil] at heq
  refine ⟨hlen, ?_, ?_, heq, hinv1, ?_⟩
  · intro pre l post has
    rw [has] at hrun
    rcases run_split pre (.click l) post w w1 hrun with ⟨wa, wb, h1, h2, h3⟩
    rcases step_click wa wb l h2 with ⟨link, hl, ht, hn⟩
    exact ⟨wa, wb, link, h1, h2, h3, hl, ht, hn⟩
  · intro pre a post has
    rw [has] at hrun
    rcases run_split pre a post w w1 hrun with ⟨wa, wb, h1, h2, h3⟩
    rcases step_other wa wb a h2 with ⟨ho1, ho2⟩
    exact ⟨wa, wb, h1, h2, h3, (step_frame wa wb a h2).2.2.2.2, ho1, ho2⟩
  · intro hnone hn
    rw [hnone, List.append_nil] at heq
    have hne : clickedLocations w.links as ≠ [] := by
      intro h0
      rw [h0] at hlen
      simp at hlen
      omega
    unfold World.location
    rw [heq, List.getLast?_append]
    rcases List.exists_cons_of_ne_nil hne with ⟨c, cs, hcs⟩
    rw [hcs, List.getLast?_eq_getLast _ (List.cons_ne_nil c cs)]
    rfl

/-- C9 on the sample page: the first link is clicked at time 0, the second at
time 100, and both timers have run by time 400. -/
theorem last_click_wins_witness :
    (clickedLocations samplePage.links twoClicks).length = twoClicks.countP isClick ∧
    (∀ pre l post, twoClicks = pre ++ .click l :: post →
      ∃ wa wb link, run samplePage pre = some wa ∧ step wa (.click l) = some wb ∧
        run wb post = some afterTwoClicks ∧ wa.links[l]? = some link ∧
        wb.timers = wa.timers ++
          [{ id := wa.nextTimerId, due := wa.now + 300, delay := 300,
             cb := .navigate link.href }] ∧
        wb.navigations = wa.navigations) ∧
    (∀ pre a post, twoClicks = pre ++ a :: post →
      ∃ wa wb, run samplePage pre = some wa ∧ step wa a = some wb ∧
        run wb post = some afterTwoClicks ∧
        (∀ t ∈ wa.timers, t ∈ wb.timers ∨ a = .fire t.id) ∧
        (isClick a = false →
          ∀ t ∈ wb.timers, ∀ href, t.cb = .navigate href → t ∈ wa.timers) ∧
        (wb.navigations = wa.navigations ∨ ∃ id, a = .fire id)) ∧
    afterTwoClicks.navigations ++ pendingNavigations afterTwoClicks.timers =
      samplePage.navigations ++ clickedLocations samplePage.links twoClicks ∧
    afterTwoClicks.NavigateDelays ∧
    (pendingNavigations afterTwoClicks.timers = [] → 1 ≤ twoClicks.countP isClick →
      afterTwoClicks.location = (clickedLocations samplePage.links twoClicks).getLast?) :=
  last_click_wins samplePage afterTwoClicks twoClicks rfl (by decide!)

/-- C10: on the sample page a `mouseleave` at time 0 followed 100ms later by a
`mousemove` leaves the button with the translation `(9px, 4.5px)` while its
transition is still `transform 0.3s ease-out` and the snap-back timer is
still pending; the `mousemove` handler never changes a transition nor the
timers, and a step removes a pending timer only by running it. -/
theorem move_during_snapback :
    run samplePage
        [.mouseleave 0, .tick 100, .mousemove 0 sampleRect (.finite 130) (.finite 115)] =
      some { samplePage with
        now := 100
        magnets := [{ transform := .translatePx (.finite 9) (.finite (9 / 2))
                      transition := "transform 0.3s ease-out" }]
        timers := [{ id := 0, due := 300, delay := 300, cb := .clearTransition 0 }]
        nextTimerId := 1 } ∧
    (∀ (w : World) (b : Nat) (rect : Rect) (x y : JSNumber),
      (mousemoveHandler w b rect x y).magnets.map (fun btn => btn.transition) =
        w.magnets.map (fun btn => btn.transition) ∧
      (mousemoveHandler w b rect x y).timers = w.timers) ∧
    (∀ (w w1 : World) (a : Action), step w a = some w1 →
      ∀ t ∈ w.timers, t ∈ w1.timers ∨ a = .fire t.id) := by
  refine ⟨by decide!, ?_, ?_⟩
  · intro w b rect x y
    simp only [mousemoveHandler]
    cases hb : w.magnets[b]? with
    | none => exact ⟨rfl, rfl⟩
    | some btn =>
      refine ⟨?_, rfl⟩
      simp only [List.map_set]
      exact set_same _ b _ (by simp [List.getElem?_map, hb])
  · intro w w1 a h
    exact (step_frame w w1 a h).2.2.2.2

end Mosaic
